import Mathlib

/-
Verification of the railway timetable conflict detection and resolution
program in src/main.py. Times are modelled as rationals and priorities as
integers. The Python train records compare by object identity, so identity
is modelled by the position (index) of a record in the timetable list: a
train is addressed by an index i, and the record at a different index is a
different object even when all of its fields coincide.
-/

/-- The TrainSchedule record of the program: identifier, platform,
interval bounds and priority. -/
structure TrainSchedule where
  train_id : String
  platform : String
  start_time : ℚ
  end_time : ℚ
  priority : Int
deriving Repr, DecidableEq, Inhabited

/-- intervals_overlap from the source: two intervals overlap when each one
starts before the other one ends (half open comparison). -/
def intervals_overlap (a b : TrainSchedule) : Bool :=
  decide (a.start_time < b.end_time ∧ b.start_time < a.end_time)

/-- is_platform_free from the source: walks the timetable, skips the train
given by index current_train, and reports false as soon as some other
train on the requested platform overlaps the candidate interval. -/
def is_platform_free (timetable : List TrainSchedule) (platform : String)
    (s e : ℚ) (current_train : Nat) : Bool :=
  (List.range timetable.length).all fun j =>
    if j = current_train then true
    else
      let train := timetable.getD j default
      if train.platform = platform then
        !(decide (s < train.end_time ∧ train.start_time < e))
      else true

/-- detect_conflicts from the source: the double loop over index pairs
i < j collecting the pairs of records that share a platform and overlap,
in the order the loops encounter them. -/
def detect_conflicts (timetable : List TrainSchedule) :
    List (TrainSchedule × TrainSchedule) :=
  (List.range timetable.length).flatMap fun i =>
    (List.range' (i + 1) (timetable.length - (i + 1))).filterMap fun j =>
      let t1 := timetable.getD i default
      let t2 := timetable.getD j default
      if t1.platform = t2.platform ∧ intervals_overlap t1 t2 then
        some (t1, t2)
      else none

/-- The conflicts list built at the top of the while loop of
resolve_conflicts, as indices: every index j other than i whose record
shares the platform of record i and overlaps it, in list order. -/
def conflictIdxs (tt : List TrainSchedule) (i : Nat) : List Nat :=
  (List.range tt.length).filter fun j =>
    decide (j ≠ i) &&
      decide ((tt.getD j default).platform = (tt.getD i default).platform) &&
      intervals_overlap (tt.getD i default) (tt.getD j default)

/-- The Python call min with a priority key over a nonempty list, given as
a head index and a tail of indices: the first element attaining the
minimal priority wins, since only a strictly smaller priority replaces
the current best. -/
def minIdxByPriority (tt : List TrainSchedule) : Nat → List Nat → Nat
  | best, [] => best
  | best, j :: js =>
    minIdxByPriority tt
      (if (tt.getD j default).priority < (tt.getD best default).priority
       then j else best) js

/-- The blocking list computed inside the platform scan of
resolve_conflicts for a candidate platform p: every index whose record
sits on p and overlaps record i. The source does not exclude i here;
during the scan p differs from the platform of record i, which excludes
i anyway. -/
def blockingIdxs (tt : List TrainSchedule) (i : Nat) (p : String) : List Nat :=
  (List.range tt.length).filter fun j =>
    decide ((tt.getD j default).platform = p) &&
      intervals_overlap (tt.getD i default) (tt.getD j default)

/-- The Python call max over the end times of the records at a nonempty
list of indices; 0 on the empty list, which the program never reaches
because max is only applied to nonempty lists there. -/
def maxEnd (tt : List TrainSchedule) : List Nat → ℚ
  | [] => 0
  | j :: js =>
    js.foldl (fun acc k => max acc (tt.getD k default).end_time)
      (tt.getD j default).end_time

/-- The two lines computing p_latest_end and p_delay of the platform
scan: the delay needed for record i to clear all records blocking
platform p, the largest blocking end time minus the start of record i. -/
def platformDelay (tt : List TrainSchedule) (i : Nat) (p : String) : ℚ :=
  maxEnd tt (blockingIdxs tt i p) - (tt.getD i default).start_time

/-- The for loop over platforms of resolve_conflicts. The pair (bp, bd)
carries best_platform and best_platform_delay. A platform equal to the
current platform of record i is skipped; the first platform with an empty
blocking list is returned at once with delay 0; otherwise a candidate
replaces the best only when its delay is strictly smaller. -/
def scanPlatforms (tt : List TrainSchedule) (i : Nat) :
    List String → String → ℚ → String × ℚ
  | [], bp, bd => (bp, bd)
  | p :: ps, bp, bd =>
    if p = (tt.getD i default).platform then scanPlatforms tt i ps bp bd
    else if (blockingIdxs tt i p).isEmpty then (p, 0)
    else if platformDelay tt i p < bd then
      scanPlatforms tt i ps p (platformDelay tt i p)
    else scanPlatforms tt i ps bp bd

/-- The three assignment statements closing one iteration of the while
loop: record i gets the best platform and both interval bounds move
forward by the single best delay. -/
def applyMove (tt : List TrainSchedule) (i : Nat) (bp : String) (bd : ℚ) :
    List TrainSchedule :=
  let train := tt.getD i default
  tt.set i { train with
    platform := bp
    start_time := train.start_time + bd
    end_time := train.end_time + bd }

/-- The while True loop of resolve_conflicts for the train at index i,
written with explicit fuel: break when no conflict remains or when the
minimal priority record of the group is not the train itself; otherwise
compute the delay needed on the current platform, scan the other
platforms, apply the consolidated move and loop. -/
def trainLoop (platforms : List String) :
    Nat → List TrainSchedule → Nat → List TrainSchedule
  | 0, tt, _ => tt
  | fuel + 1, tt, i =>
    let conf := conflictIdxs tt i
    if conf.isEmpty then tt
    else if minIdxByPriority tt i conf ≠ i then tt
    else
      let train := tt.getD i default
      let delay_needed := maxEnd tt conf - train.start_time
      let best := scanPlatforms tt i platforms train.platform delay_needed
      trainLoop platforms fuel (applyMove tt i best.1 best.2) i

/-- One step of the stable insertion modelling the Python stable sort:
insert a record in front of the first record with a strictly later start,
behind records starting no later, so records with equal starts keep their
original relative order. -/
def insertByStart (t : TrainSchedule) :
    List TrainSchedule → List TrainSchedule
  | [] => [t]
  | u :: us =>
    if t.start_time ≤ u.start_time then t :: u :: us
    else u :: insertByStart t us

/-- The call timetable.sort with the start time key: a stable sort by
ascending start time, modelled as stable insertion sort, which agrees
with every stable sort by the same key. -/
def sortByStart : List TrainSchedule → List TrainSchedule
  | [] => []
  | t :: ts => insertByStart t (sortByStart ts)

/-- resolve_conflicts from the source: sort the timetable by start time,
then run the while loop once for every position in order. The fuel
tt.length + 1 is enough for the loop to reach one of its break
statements; this is proved below. -/
def resolve_conflicts (timetable : List TrainSchedule)
    (platforms : List String) : List TrainSchedule :=
  let sorted := sortByStart timetable
  (List.range sorted.length).foldl
    (fun tt i => trainLoop platforms (tt.length + 1) tt i) sorted

/-- Relation between a timetable and a later snapshot of it: same
length, every record moved forward in time or stayed where it was, and
every record kept its duration. -/
def DelayedFrom (old new : List TrainSchedule) : Prop :=
  new.length = old.length ∧
  ∀ j : Nat,
    (old.getD j default).start_time ≤ (new.getD j default).start_time ∧
    (new.getD j default).end_time - (new.getD j default).start_time =
      (old.getD j default).end_time - (old.getD j default).start_time

/-- Termination measure of the while loop for the train at index i: how
many positions other than i hold a record whose end time lies strictly
after the start of record i. Every move with a positive delay parks the
start of record i on the end time of some other record, so this count
strictly drops at each such move. -/
def laterEnds (tt : List TrainSchedule) (i : Nat) : Nat :=
  ((List.range tt.length).filter fun j =>
    decide (j ≠ i) &&
      decide ((tt.getD i default).start_time <
        (tt.getD j default).end_time)).length

-- Concrete fixtures used by the claims below.

/-- The two train fixture of the priority dominance property: A on P1
over (0,10) with priority 1 and B on P1 over (5,15) with priority 2. -/
def ttPriori : List TrainSchedule :=
  [⟨"A", "P1", 0, 10, 1⟩, ⟨"B", "P1", 5, 15, 2⟩]

/-- A three train fixture on a single platform where resolution leaves a
conflict behind: A yields to B, B yields to C, C moves clear, and the
conflict between A and B survives. -/
def ttResidual : List TrainSchedule :=
  [⟨"A", "P1", 0, 10, 3⟩, ⟨"B", "P1", 5, 15, 2⟩, ⟨"C", "P1", 12, 20, 1⟩]

/-- A two train fixture where a second train on the same platform
overlaps the first, so the availability check for the first train
reports the platform busy. -/
def ttBusy : List TrainSchedule :=
  [⟨"T1", "P1", 0, 10, 1⟩, ⟨"T2", "P1", 5, 15, 2⟩]

-- Unfolding lemmas for the while loop, one per exit or step of the loop.

/-- With no conflict the loop returns the timetable unchanged, whatever
the fuel. -/
lemma trainLoop_of_no_conflicts (ps : List String) (tt : List TrainSchedule)
    (i : Nat) (h : conflictIdxs tt i = []) :
    ∀ fuel, trainLoop ps fuel tt i = tt
  | 0 => rfl
  | fuel + 1 => by simp [trainLoop, h]

/-- When the minimal priority record of the conflict group is not the
train itself, the loop returns the timetable unchanged, whatever the
fuel. -/
lemma trainLoop_of_yield (ps : List String) (tt : List TrainSchedule)
    (i : Nat) (h : minIdxByPriority tt i (conflictIdxs tt i) ≠ i) :
    ∀ fuel, trainLoop ps fuel tt i = tt
  | 0 => rfl
  | fuel + 1 => by
    by_cases hc : (conflictIdxs tt i).isEmpty
    · simp [trainLoop, hc]
    · simp [trainLoop, hc, h]

/-- When conflicts exist and the train itself carries the minimal
priority, one loop iteration applies the consolidated move given by the
platform scan and continues with one unit of fuel less. -/
lemma trainLoop_move (ps : List String) (tt : List TrainSchedule) (i : Nat)
    (fuel : Nat) (h1 : conflictIdxs tt i ≠ [])
    (h2 : minIdxByPriority tt i (conflictIdxs tt i) = i) :
    trainLoop ps (fuel + 1) tt i =
      trainLoop ps fuel
        (applyMove tt i
          (scanPlatforms tt i ps (tt.getD i default).platform
            (maxEnd tt (conflictIdxs tt i) -
              (tt.getD i default).start_time)).1
          (scanPlatforms tt i ps (tt.getD i default).platform
            (maxEnd tt (conflictIdxs tt i) -
              (tt.getD i default).start_time)).2) i := by
  have hc : ((conflictIdxs tt i).isEmpty) = false := by
    simpa [List.isEmpty_iff] using h1
  simp [trainLoop, hc, h2]

/-- Claim C4: intervals_overlap holds exactly when each interval starts
before the other one ends, it is symmetric, and intervals that merely
touch at an endpoint do not overlap. -/
theorem overlap_characterization :
    (∀ a b : TrainSchedule, intervals_overlap a b = true ↔
      (a.start_time < b.end_time ∧ b.start_time < a.end_time)) ∧
    (∀ a b : TrainSchedule, intervals_overlap a b = intervals_overlap b a) ∧
    (∀ a b : TrainSchedule, a.end_time = b.start_time →
      intervals_overlap a b = false) := by
  refine ⟨fun a b => by simp [intervals_overlap], fun a b => ?_, fun a b h => ?_⟩
  · simp only [intervals_overlap]
    exact decide_eq_decide.mpr ⟨fun hab => ⟨hab.2, hab.1⟩, fun hba => ⟨hba.2, hba.1⟩⟩
  · simp only [intervals_overlap, decide_eq_false_iff_not]
    rintro ⟨-, h2⟩
    rw [h] at h2
    exact lt_irrefl _ h2

/-- Applies the overlap characterization at two concrete touching
intervals. -/
theorem overlap_characterization_witness :
    (⟨"A", "P1", 0, 10, 1⟩ : TrainSchedule).end_time =
      (⟨"B", "P1", 10, 20, 1⟩ : TrainSchedule).start_time ∧
    intervals_overlap ⟨"A", "P1", 0, 10, 1⟩ ⟨"B", "P1", 10, 20, 1⟩ = false :=
  ⟨rfl, overlap_characterization.2.2 ⟨"A", "P1", 0, 10, 1⟩
    ⟨"B", "P1", 10, 20, 1⟩ rfl⟩

/-- Claim C1, behavior of the code at the fixture of the priority
dominance property: the program delays train A, the train with the
smallest priority value, by 15 and leaves B untouched, so A is changed
and the start of B stays 5, below 10. The claim states the opposite
outcome. -/
theorem priority_dominance_fails_on_code :
    resolve_conflicts ttPriori ["P1"] =
      [⟨"A", "P1", 15, 25, 1⟩, ⟨"B", "P1", 5, 15, 2⟩] ∧
    ¬((resolve_conflicts ttPriori ["P1"]).getD 0 default =
        ⟨"A", "P1", 0, 10, 1⟩) ∧
    ¬((10 : ℚ) ≤
        ((resolve_conflicts ttPriori ["P1"]).getD 1 default).start_time) := by
  have h0 : sortByStart ttPriori = ttPriori := by decide
  have s1 : trainLoop ["P1"] 3 ttPriori 0 =
      trainLoop ["P1"] 2 [⟨"A", "P1", 15, 25, 1⟩, ⟨"B", "P1", 5, 15, 2⟩] 0 := by
    rw [trainLoop_move _ _ _ _ (by decide) (by decide)]
    norm_num [conflictIdxs, minIdxByPriority, maxEnd, scanPlatforms,
      platformDelay, blockingIdxs, applyMove, intervals_overlap, ttPriori,
      List.range_succ]
  have s2 : trainLoop ["P1"] 2
      [⟨"A", "P1", 15, 25, 1⟩, ⟨"B", "P1", 5, 15, 2⟩] 0 =
      [⟨"A", "P1", 15, 25, 1⟩, ⟨"B", "P1", 5, 15, 2⟩] :=
    trainLoop_of_no_conflicts _ _ _ (by decide) 2
  have s3 : trainLoop ["P1"] 3
      [⟨"A", "P1", 15, 25, 1⟩, ⟨"B", "P1", 5, 15, 2⟩] 1 =
      [⟨"A", "P1", 15, 25, 1⟩, ⟨"B", "P1", 5, 15, 2⟩] :=
    trainLoop_of_no_conflicts _ _ _ (by decide) 3
  have hmain : resolve_conflicts ttPriori ["P1"] =
      [⟨"A", "P1", 15, 25, 1⟩, ⟨"B", "P1", 5, 15, 2⟩] := by
    norm_num [resolve_conflicts, h0, show ttPriori.length = 2 from rfl,
      List.range_succ, s1, s2, s3]
  refine ⟨hmain, ?_, ?_⟩ <;> rw [hmain] <;> decide

/-- Claim C9: after resolution of the three train fixture on the single
platform P1, the detector still reports a conflict: A yielded to B, B
yielded to C, C moved clear, and the overlap between A and B survived. -/
theorem resolution_leaves_conflict :
    detect_conflicts (resolve_conflicts ttResidual ["P1"]) ≠ [] := by
  have h0 : sortByStart ttResidual = ttResidual := by decide
  have y0 : trainLoop ["P1"] 4 ttResidual 0 = ttResidual :=
    trainLoop_of_yield _ _ _ (by decide) 4
  have y1 : trainLoop ["P1"] 4 ttResidual 1 = ttResidual :=
    trainLoop_of_yield _ _ _ (by decide) 4
  have s1 : trainLoop ["P1"] 4 ttResidual 2 =
      trainLoop ["P1"] 3
        [⟨"A", "P1", 0, 10, 3⟩, ⟨"B", "P1", 5, 15, 2⟩,
          ⟨"C", "P1", 15, 23, 1⟩] 2 := by
    rw [trainLoop_move _ _ _ _ (by decide) (by decide)]
    norm_num [conflictIdxs, minIdxByPriority, maxEnd, scanPlatforms,
      platformDelay, blockingIdxs, applyMove, intervals_overlap, ttResidual,
      List.range_succ]
  have s2 : trainLoop ["P1"] 3
      [⟨"A", "P1", 0, 10, 3⟩, ⟨"B", "P1", 5, 15, 2⟩,
        ⟨"C", "P1", 15, 23, 1⟩] 2 =
      [⟨"A", "P1", 0, 10, 3⟩, ⟨"B", "P1", 5, 15, 2⟩,
        ⟨"C", "P1", 15, 23, 1⟩] :=
    trainLoop_of_no_conflicts _ _ _ (by decide) 3
  have hmain : resolve_conflicts ttResidual ["P1"] =
      [⟨"A", "P1", 0, 10, 3⟩, ⟨"B", "P1", 5, 15, 2⟩,
        ⟨"C", "P1", 15, 23, 1⟩] := by
    norm_num [resolve_conflicts, h0, show ttResidual.length = 3 from rfl,
      List.range_succ, y0, y1, s1, s2]
  rw [hmain]
  decide

/-- The availability check, characterized: it answers true exactly when
every record other than the one at index current, assigned to the
requested platform, stays clear of the candidate interval. -/
lemma is_platform_free_iff (tt : List TrainSchedule) (p : String)
    (s e : ℚ) (current : Nat) :
    is_platform_free tt p s e current = true ↔
      ∀ j, j < tt.length → j ≠ current → (tt.getD j default).platform = p →
        ¬(s < (tt.getD j default).end_time ∧
          (tt.getD j default).start_time < e) := by
  simp only [is_platform_free, List.all_eq_true, List.mem_range]
  constructor
  · intro h j hj hne hp
    have hh := h j hj
    rw [if_neg hne, if_pos hp, Bool.not_eq_true', decide_eq_false_iff_not] at hh
    exact hh
  · intro h j hj
    by_cases hji : j = current
    · rw [if_pos hji]
    · by_cases hp : (tt.getD j default).platform = p
      · rw [if_neg hji, if_pos hp, Bool.not_eq_true', decide_eq_false_iff_not]
        exact h j hj hji hp
      · rw [if_neg hji, if_neg hp]

/-- Counterexample to claim C6 as stated: in the two train fixture the
first train sits on P1 over (0, 10), yet the availability check for its
own platform and interval answers false, because the second train also
overlaps it there. -/
theorem availability_excludes_self_fails :
    ((ttBusy.getD 0 default).platform = "P1" ∧
      (ttBusy.getD 0 default).start_time = 0 ∧
      (ttBusy.getD 0 default).end_time = 10) ∧
    is_platform_free ttBusy "P1" 0 10 0 = false := by decide

/-- Claim C6 amended: the availability check never counts the train at
index i itself, so whenever every other record on the platform of that
train stays clear of its interval, the check answers true even though
the record at i occupies that exact interval on that platform. -/
theorem availability_excludes_self_amended (tt : List TrainSchedule)
    (i : Nat)
    (h : ∀ j, j < tt.length → j ≠ i →
      (tt.getD j default).platform = (tt.getD i default).platform →
      intervals_overlap (tt.getD i default) (tt.getD j default) = false) :
    is_platform_free tt (tt.getD i default).platform
      (tt.getD i default).start_time (tt.getD i default).end_time i = true := by
  rw [is_platform_free_iff]
  intro j hj hne hp
  have ho := h j hj hne hp
  simpa [intervals_overlap] using ho

/-- Applies the amended claim C6 at a timetable whose two trains share a
platform and touch at an endpoint without overlapping. -/
theorem availability_excludes_self_amended_witness :
    is_platform_free [⟨"T1", "P1", 0, 10, 1⟩, ⟨"T2", "P1", 10, 20, 1⟩]
      "P1" 0 10 0 = true :=
  availability_excludes_self_amended
    [⟨"T1", "P1", 0, 10, 1⟩, ⟨"T2", "P1", 10, 20, 1⟩] 0
    (fun j hj hne _ => by
      have hj2 : j < 2 := by simpa using hj
      have hj1 : j = 1 := by omega
      subst hj1
      decide)

/-- Claim C10: for a platform p other than the current platform of the
record at index i, the blocking list computed inline by the resolver is
empty exactly when the availability checker reports platform p free for
the interval of that record, excluding the record itself. -/
theorem blocking_empty_iff_platform_free (tt : List TrainSchedule)
    (i : Nat) (p : String) (hi : i < tt.length)
    (hp : p ≠ (tt.getD i default).platform) :
    blockingIdxs tt i p = [] ↔
      is_platform_free tt p (tt.getD i default).start_time
        (tt.getD i default).end_time i = true := by
  rw [is_platform_free_iff, blockingIdxs, List.filter_eq_nil_iff]
  constructor
  · intro h j hj hne hpl
    have hh := h j (List.mem_range.mpr hj)
    simp only [Bool.and_eq_true, decide_eq_true_eq, not_and] at hh
    have hno := hh hpl
    simpa [intervals_overlap] using hno
  · intro h j hj
    simp only [Bool.and_eq_true, decide_eq_true_eq, not_and]
    intro hpl
    have hne : j ≠ i := by
      intro hji
      rw [hji] at hpl
      exact hp hpl.symm
    have hno := h j (List.mem_range.mp hj) hne hpl
    simpa [intervals_overlap] using hno

/-- The fold modelling the Python min call picks the first element of the
nonempty list b :: js attaining the minimal priority: the list splits
around the result, every element before it has a strictly larger
priority, and every element after it has a priority at least as
large. -/
lemma minIdxByPriority_first_min (tt : List TrainSchedule) :
    ∀ (js : List Nat) (b : Nat), ∃ pre post,
      b :: js = pre ++ minIdxByPriority tt b js :: post ∧
      (∀ j ∈ pre, (tt.getD (minIdxByPriority tt b js) default).priority <
        (tt.getD j default).priority) ∧
      (∀ j ∈ post, (tt.getD (minIdxByPriority tt b js) default).priority ≤
        (tt.getD j default).priority)
  | [], b => ⟨[], [], rfl, by simp, by simp⟩
  | j :: js, b => by
    by_cases hcmp :
        (tt.getD j default).priority < (tt.getD b default).priority
    · have hrw : minIdxByPriority tt b (j :: js) = minIdxByPriority tt j js := by
        rw [minIdxByPriority, if_pos hcmp]
      obtain ⟨pre, post, heq, hpre, hpost⟩ := minIdxByPriority_first_min tt js j
      have hmj : (tt.getD (minIdxByPriority tt j js) default).priority ≤
          (tt.getD j default).priority := by
        cases pre with
        | nil =>
          have : j = minIdxByPriority tt j js := by
            simpa using congrArg (fun l => l.headD 0) heq
          rw [← this]
        | cons x pre2 =>
          have hx : x = j := by
            simpa using (congrArg (fun l => l.headD 0) heq).symm
          exact le_of_lt (hpre x (by simp) |>.trans_le (by rw [hx]))
      refine ⟨b :: pre, post, ?_, ?_, ?_⟩
      · rw [hrw, List.cons_append, ← heq]
      · intro x hx
        rcases List.mem_cons.mp hx with hxb | hxp
        · rw [hrw, hxb]
          exact lt_of_le_of_lt hmj hcmp
        · rw [hrw]
          exact hpre x hxp
      · intro x hx
        rw [hrw]
        exact hpost x hx
    · have hrw : minIdxByPriority tt b (j :: js) = minIdxByPriority tt b js := by
        rw [minIdxByPriority, if_neg hcmp]
      obtain ⟨pre, post, heq, hpre, hpost⟩ := minIdxByPriority_first_min tt js b
      cases pre with
      | nil =>
        have hb : b = minIdxByPriority tt b js := by
          simpa using congrArg (fun l => l.headD 0) heq
        have hjs : js = post := by
          simpa using congrArg List.tail heq
        refine ⟨[], j :: post, ?_, by simp, ?_⟩
        · rw [hrw, List.nil_append, ← hb, hjs]
        · intro x hx
          rcases List.mem_cons.mp hx with hxj | hxp
          · rw [hrw, ← hb, hxj]
            exact le_of_not_lt hcmp
          · rw [hrw]
            exact hpost x hxp
      | cons x pre2 =>
        have hx : x = b := by
          simpa using (congrArg (fun l => l.headD 0) heq).symm
        have hjs : js = pre2 ++ minIdxByPriority tt b js :: post := by
          simpa using congrArg List.tail heq
        refine ⟨b :: j :: pre2, post, ?_, ?_, ?_⟩
        · rw [hrw, List.cons_append, List.cons_append, ← hjs]
        · intro y hy
          rcases List.mem_cons.mp hy with hyb | hy2
          · rw [hrw, hyb]
            have := hpre x (by simp)
            rwa [hx] at this
          · rcases List.mem_cons.mp hy2 with hyj | hyp
            · rw [hrw, hyj]
              have hmb : (tt.getD (minIdxByPriority tt b js) default).priority <
                  (tt.getD b default).priority := by
                have := hpre x (by simp)
                rwa [hx] at this
              exact lt_of_lt_of_le hmb (le_of_not_lt hcmp)
            · rw [hrw]
              exact hpre y (by simp [hyp])
        · intro y hy
          rw [hrw]
          exact hpost y hy

/-- Claim C2: in one iteration of the loop for the train at index i, the
winner is the first minimal priority element in the order i followed by
the conflicts, so the train wins priority ties against its conflicts;
and when the winner is not i, the loop returns the timetable with every
field of every record unchanged, whatever fuel remains. -/
theorem winner_first_min_and_yield_unchanged (tt : List TrainSchedule)
    (ps : List String) (i fuel : Nat) :
    (∃ pre post,
      i :: conflictIdxs tt i =
        pre ++ minIdxByPriority tt i (conflictIdxs tt i) :: post ∧
      (∀ j ∈ pre,
        (tt.getD (minIdxByPriority tt i (conflictIdxs tt i)) default).priority <
          (tt.getD j default).priority) ∧
      (∀ j ∈ post,
        (tt.getD (minIdxByPriority tt i (conflictIdxs tt i)) default).priority ≤
          (tt.getD j default).priority)) ∧
    (minIdxByPriority tt i (conflictIdxs tt i) ≠ i →
      trainLoop ps fuel tt i = tt) :=
  ⟨minIdxByPriority_first_min tt (conflictIdxs tt i) i,
    fun h => trainLoop_of_yield ps tt i h fuel⟩

/-- Applies claim C2 at the two train fixture for the low priority
train at index 1, whose winner is index 0, so the loop leaves the
timetable unchanged. -/
theorem winner_first_min_and_yield_unchanged_witness :
    minIdxByPriority ttBusy 1 (conflictIdxs ttBusy 1) ≠ 1 ∧
    trainLoop ["P1"] 5 ttBusy 1 = ttBusy :=
  ⟨by decide,
    (winner_first_min_and_yield_unchanged ttBusy ["P1"] 1 5).2 (by decide)⟩

/-- Applies claim C10 at the two train fixture and the free platform
P2. -/
theorem blocking_empty_iff_platform_free_witness :
    blockingIdxs ttBusy 0 "P2" = [] ↔
      is_platform_free ttBusy "P2" (ttBusy.getD 0 default).start_time
        (ttBusy.getD 0 default).end_time 0 = true :=
  blocking_empty_iff_platform_free ttBusy 0 "P2" (by decide) (by decide)

/-- When some platform in the list differs from the current platform of
record i and has an empty blocking list, the scan returns the first such
platform with delay zero, whatever the running best pair was. -/
lemma scanPlatforms_first_free (tt : List TrainSchedule) (i : Nat) :
    ∀ (ps : List String) (bp : String) (d : ℚ) (p : String),
      ps.find? (fun q => decide (q ≠ (tt.getD i default).platform) &&
        (blockingIdxs tt i q).isEmpty) = some p →
      scanPlatforms tt i ps bp d = (p, 0)
  | [], bp, d, p => by intro hf; simp at hf
  | q :: ps, bp, d, p => by
    intro hf
    by_cases hown : q = (tt.getD i default).platform
    · rw [List.find?_cons_of_neg _ (by simp [hown])] at hf
      rw [scanPlatforms, if_pos hown]
      exact scanPlatforms_first_free tt i ps bp d p hf
    · by_cases hb : (blockingIdxs tt i q).isEmpty
      · rw [List.find?_cons_of_pos _ (by
          simp only [Bool.and_eq_true, decide_eq_true_eq]
          exact ⟨hown, hb⟩)] at hf
        rw [Option.some.injEq] at hf
        rw [scanPlatforms, if_neg hown, if_pos hb, hf]
      · rw [List.find?_cons_of_neg _ (by simp [hb])] at hf
        rw [scanPlatforms, if_neg hown, if_neg hb]
        by_cases hlt : platformDelay tt i q < d
        · rw [if_pos hlt]
          exact scanPlatforms_first_free tt i ps q _ p hf
        · rw [if_neg hlt]
          exact scanPlatforms_first_free tt i ps bp d p hf

/-- When every candidate platform other than the current one has a
nonempty blocking list, the scan keeps folding the strictly smaller
delay rule over the list: the returned delay is that fold of the
starting delay, and the returned pair is either the untouched starting
pair or a listed platform together with its own delay, strictly below
the starting delay. -/
lemma scanPlatforms_no_free (tt : List TrainSchedule) (i : Nat) :
    ∀ (ps : List String) (bp : String) (d : ℚ),
      (∀ q ∈ ps, q ≠ (tt.getD i default).platform →
        blockingIdxs tt i q ≠ []) →
      (scanPlatforms tt i ps bp d).2 =
        ps.foldl (fun acc q =>
          if q = (tt.getD i default).platform then acc
          else if platformDelay tt i q < acc then platformDelay tt i q
          else acc) d ∧
      (scanPlatforms tt i ps bp d = (bp, d) ∨
        ((scanPlatforms tt i ps bp d).1 ∈ ps ∧
          (scanPlatforms tt i ps bp d).1 ≠ (tt.getD i default).platform ∧
          (scanPlatforms tt i ps bp d).2 =
            platformDelay tt i (scanPlatforms tt i ps bp d).1 ∧
          (scanPlatforms tt i ps bp d).2 < d))
  | [], bp, d => fun _ => by simp [scanPlatforms]
  | q :: ps, bp, d => fun h => by
    by_cases hown : q = (tt.getD i default).platform
    · rw [scanPlatforms, if_pos hown, List.foldl_cons, if_pos hown]
      have ih := scanPlatforms_no_free tt i ps bp d
        (fun r hr => h r (List.mem_cons_of_mem _ hr))
      refine ⟨ih.1, ?_⟩
      rcases ih.2 with h1 | ⟨hm, hne, heq, hlt⟩
      · exact Or.inl h1
      · exact Or.inr ⟨List.mem_cons_of_mem _ hm, hne, heq, hlt⟩
    · have hbne : blockingIdxs tt i q ≠ [] :=
        h q (List.mem_cons_self _ _) hown
      have hbe : ¬(blockingIdxs tt i q).isEmpty = true := by
        simpa [List.isEmpty_iff] using hbne
      rw [scanPlatforms, if_neg hown, if_neg hbe, List.foldl_cons, if_neg hown]
      by_cases hlt : platformDelay tt i q < d
      · rw [if_pos hlt, if_pos hlt]
        have ih := scanPlatforms_no_free tt i ps q (platformDelay tt i q)
          (fun r hr => h r (List.mem_cons_of_mem _ hr))
        refine ⟨ih.1, Or.inr ?_⟩
        rcases ih.2 with h1 | ⟨hm, hne, heq, hlt2⟩
        · rw [h1]
          exact ⟨List.mem_cons_self _ _, hown, rfl, hlt⟩
        · exact ⟨List.mem_cons_of_mem _ hm, hne, heq, lt_trans hlt2 hlt⟩
      · rw [if_neg hlt, if_neg hlt]
        have ih := scanPlatforms_no_free tt i ps bp d
          (fun r hr => h r (List.mem_cons_of_mem _ hr))
        refine ⟨ih.1, ?_⟩
        rcases ih.2 with h1 | ⟨hm, hne, heq, hlt2⟩
        · exact Or.inl h1
        · exact Or.inr ⟨List.mem_cons_of_mem _ hm, hne, heq, hlt2⟩

/-- Claim C3: the platform scan returns the first other platform with no
record overlapping the current interval of record i with delay zero and
stops there; with no free platform it folds the strictly smaller delay
rule over the list, starting from the delay needed on the current
platform, and ends on a candidate carrying its own delay; and the loop
then performs one consolidated update, setting the platform of record i
and adding the single best delay to both interval bounds while the
identifier and priority stay untouched. -/
theorem platform_scan_and_consolidated_update (tt : List TrainSchedule)
    (ps : List String) (i fuel : Nat) :
    (∀ (bp : String) (d : ℚ) (p : String),
      ps.find? (fun q => decide (q ≠ (tt.getD i default).platform) &&
        (blockingIdxs tt i q).isEmpty) = some p →
      scanPlatforms tt i ps bp d = (p, 0)) ∧
    (∀ (bp : String) (d : ℚ),
      ps.find? (fun q => decide (q ≠ (tt.getD i default).platform) &&
        (blockingIdxs tt i q).isEmpty) = none →
      (scanPlatforms tt i ps bp d).2 =
        ps.foldl (fun acc q =>
          if q = (tt.getD i default).platform then acc
          else if platformDelay tt i q < acc then platformDelay tt i q
          else acc) d ∧
      (scanPlatforms tt i ps bp d = (bp, d) ∨
        ((scanPlatforms tt i ps bp d).1 ∈ ps ∧
          (scanPlatforms tt i ps bp d).1 ≠ (tt.getD i default).platform ∧
          (scanPlatforms tt i ps bp d).2 =
            platformDelay tt i (scanPlatforms tt i ps bp d).1 ∧
          (scanPlatforms tt i ps bp d).2 < d))) ∧
    (conflictIdxs tt i ≠ [] →
      minIdxByPriority tt i (conflictIdxs tt i) = i →
      trainLoop ps (fuel + 1) tt i =
        trainLoop ps fuel
          (tt.set i
            { train_id := (tt.getD i default).train_id
              platform := (scanPlatforms tt i ps (tt.getD i default).platform
                (maxEnd tt (conflictIdxs tt i) -
                  (tt.getD i default).start_time)).1
              start_time := (tt.getD i default).start_time +
                (scanPlatforms tt i ps (tt.getD i default).platform
                  (maxEnd tt (conflictIdxs tt i) -
                    (tt.getD i default).start_time)).2
              end_time := (tt.getD i default).end_time +
                (scanPlatforms tt i ps (tt.getD i default).platform
                  (maxEnd tt (conflictIdxs tt i) -
                    (tt.getD i default).start_time)).2
              priority := (tt.getD i default).priority }) i) := by
  refine ⟨fun bp d p hf => scanPlatforms_first_free tt i ps bp d p hf,
    fun bp d hf => ?_, fun h1 h2 => ?_⟩
  · refine scanPlatforms_no_free tt i ps bp d ?_
    intro q hq hqo
    have hq2 := List.find?_eq_none.mp hf q hq
    simp only [Bool.and_eq_true, not_and, decide_eq_true_eq] at hq2
    have hq3 := hq2 hqo
    simpa [List.isEmpty_iff] using hq3
  · rw [trainLoop_move ps tt i fuel h1 h2]
    rfl

/-- Applies claim C3 at the two train fixture: with platforms P1 and P2
the free platform P2 is taken with zero delay; with the single platform
P1 the starting delay is kept; and one loop iteration moves the winning
record onto P2 with both bounds unchanged by the zero delay. -/
theorem platform_scan_and_consolidated_update_witness :
    scanPlatforms ttBusy 0 ["P1", "P2"] "P1" 7 = ("P2", 0) ∧
    (scanPlatforms ttBusy 0 ["P1"] "P1" 7).2 = 7 ∧
    trainLoop ["P1", "P2"] 1 ttBusy 0 =
      ttBusy.set 0 ⟨"T1", "P2", 0, 10, 1⟩ :=
  ⟨(platform_scan_and_consolidated_update ttBusy ["P1", "P2"] 0 0).1
      "P1" 7 "P2" (by decide),
    ((platform_scan_and_consolidated_update ttBusy ["P1"] 0 0).2.1
      "P1" 7 (by decide)).1.trans (by decide),
    ((platform_scan_and_consolidated_update ttBusy ["P1", "P2"] 0 0).2.2
      (by decide) (by decide)).trans
      (by simp [trainLoop, scanPlatforms, conflictIdxs, maxEnd,
        blockingIdxs, platformDelay, minIdxByPriority, intervals_overlap,
        ttBusy, List.range_succ])⟩

/-- DelayedFrom is reflexive. -/
lemma delayedFrom_refl (tt : List TrainSchedule) : DelayedFrom tt tt :=
  ⟨rfl, fun _ => ⟨le_refl _, rfl⟩⟩

/-- DelayedFrom composes. -/
lemma delayedFrom_trans {a b c : List TrainSchedule}
    (h1 : DelayedFrom a b) (h2 : DelayedFrom b c) : DelayedFrom a c :=
  ⟨h2.1.trans h1.1,
    fun j => ⟨(h1.2 j).1.trans (h2.2 j).1, (h2.2 j).2.trans (h1.2 j).2⟩⟩

/-- Membership in the conflicts list unpacked: a position in range,
different from i, on the platform of record i and overlapping it. -/
lemma mem_conflictIdxs {tt : List TrainSchedule} {i j : Nat}
    (h : j ∈ conflictIdxs tt i) :
    j < tt.length ∧ j ≠ i ∧
      (tt.getD j default).platform = (tt.getD i default).platform ∧
      (tt.getD i default).start_time < (tt.getD j default).end_time ∧
      (tt.getD j default).start_time < (tt.getD i default).end_time := by
  simp only [conflictIdxs, List.mem_filter, List.mem_range,
    Bool.and_eq_true, decide_eq_true_eq, intervals_overlap] at h
  exact ⟨h.1, h.2.1.1, h.2.1.2, h.2.2⟩

/-- Membership in a blocking list unpacked: a position in range, on the
scanned platform and overlapping record i. -/
lemma mem_blockingIdxs {tt : List TrainSchedule} {i j : Nat} {p : String}
    (h : j ∈ blockingIdxs tt i p) :
    j < tt.length ∧ (tt.getD j default).platform = p ∧
      (tt.getD i default).start_time < (tt.getD j default).end_time ∧
      (tt.getD j default).start_time < (tt.getD i default).end_time := by
  simp only [blockingIdxs, List.mem_filter, List.mem_range,
    Bool.and_eq_true, decide_eq_true_eq, intervals_overlap] at h
  exact ⟨h.1, h.2.1, h.2.2⟩

/-- The running fold of the Python max call dominates its seed. -/
lemma foldl_max_seed_le (tt : List TrainSchedule) :
    ∀ (js : List Nat) (b : ℚ),
      b ≤ js.foldl (fun acc k => max acc (tt.getD k default).end_time) b
  | [], b => le_refl b
  | j :: js, b =>
    (le_max_left b (tt.getD j default).end_time).trans
      (foldl_max_seed_le tt js _)

/-- The running fold of the Python max call dominates every listed end
time. -/
lemma foldl_max_mem_le (tt : List TrainSchedule) :
    ∀ (js : List Nat) (b : ℚ) (j : Nat), j ∈ js →
      (tt.getD j default).end_time ≤
        js.foldl (fun acc k => max acc (tt.getD k default).end_time) b
  | [], _, _, h => absurd h (List.not_mem_nil _)
  | k :: js, b, j, h => by
    rcases List.mem_cons.mp h with hk | hm
    · rw [List.foldl_cons, hk]
      exact (le_max_right b _).trans (foldl_max_seed_le tt js _)
    · rw [List.foldl_cons]
      exact foldl_max_mem_le tt js _ j hm

/-- maxEnd dominates the end time of every listed position. -/
lemma le_maxEnd (tt : List TrainSchedule) (js : List Nat) (j : Nat)
    (h : j ∈ js) : (tt.getD j default).end_time ≤ maxEnd tt js := by
  cases js with
  | nil => exact absurd h (List.not_mem_nil _)
  | cons k ks =>
    rcases List.mem_cons.mp h with hk | hm
    · rw [maxEnd, hk]
      exact foldl_max_seed_le tt ks _
    · rw [maxEnd]
      exact foldl_max_mem_le tt ks _ j hm

/-- The running fold of the Python max call returns its seed or a listed
end time. -/
lemma foldl_max_attained (tt : List TrainSchedule) :
    ∀ (js : List Nat) (b : ℚ),
      js.foldl (fun acc k => max acc (tt.getD k default).end_time) b = b ∨
      ∃ j ∈ js,
        js.foldl (fun acc k => max acc (tt.getD k default).end_time) b =
          (tt.getD j default).end_time
  | [], b => Or.inl rfl
  | k :: js, b => by
    rw [List.foldl_cons]
    rcases foldl_max_attained tt js (max b (tt.getD k default).end_time) with
      h | ⟨j, hj, h⟩
    · rcases max_choice b (tt.getD k default).end_time with hb | hk
      · exact Or.inl (by rw [h, hb])
      · exact Or.inr ⟨k, List.mem_cons_self _ _, by rw [h, hk]⟩
    · exact Or.inr ⟨j, List.mem_cons_of_mem _ hj, h⟩

/-- On a nonempty list, maxEnd is the end time of one of the listed
positions. -/
lemma maxEnd_attained (tt : List TrainSchedule) (js : List Nat)
    (h : js ≠ []) :
    ∃ j ∈ js, maxEnd tt js = (tt.getD j default).end_time := by
  cases js with
  | nil => exact absurd rfl h
  | cons k ks =>
    rw [maxEnd]
    rcases foldl_max_attained tt ks (tt.getD k default).end_time with
      hb | ⟨j, hj, hj2⟩
    · exact ⟨k, List.mem_cons_self _ _, hb⟩
    · exact ⟨j, List.mem_cons_of_mem _ hj, hj2⟩

/-- With a nonempty blocking list the delay of a scanned platform is
strictly positive, because one blocking record ends strictly after the
start of record i. -/
lemma platformDelay_pos (tt : List TrainSchedule) (i : Nat) (p : String)
    (h : blockingIdxs tt i p ≠ []) : 0 < platformDelay tt i p := by
  obtain ⟨j, hj⟩ := List.exists_mem_of_ne_nil _ h
  have hlt := (mem_blockingIdxs hj).2.2.1
  have hle := le_maxEnd tt (blockingIdxs tt i p) j hj
  rw [platformDelay]
  exact sub_pos.mpr (lt_of_lt_of_le hlt hle)

/-- With a nonempty conflicts list the delay needed on the current
platform is strictly positive. -/
lemma conflictDelay_pos (tt : List TrainSchedule) (i : Nat)
    (h : conflictIdxs tt i ≠ []) :
    0 < maxEnd tt (conflictIdxs tt i) - (tt.getD i default).start_time := by
  obtain ⟨j, hj⟩ := List.exists_mem_of_ne_nil _ h
  have hlt := (mem_conflictIdxs hj).2.2.2.1
  have hle := le_maxEnd tt (conflictIdxs tt i) j hj
  exact sub_pos.mpr (lt_of_lt_of_le hlt hle)

/-- Given a nonnegative starting delay, the scan only ever returns a
nonnegative delay. -/
lemma scanPlatforms_delay_nonneg (tt : List TrainSchedule) (i : Nat) :
    ∀ (ps : List String) (bp : String) (d : ℚ), 0 ≤ d →
      0 ≤ (scanPlatforms tt i ps bp d).2
  | [], bp, d, hd => hd
  | p :: ps, bp, d, hd => by
    by_cases h1 : p = (tt.getD i default).platform
    · rw [scanPlatforms, if_pos h1]
      exact scanPlatforms_delay_nonneg tt i ps bp d hd
    · by_cases h2 : (blockingIdxs tt i p).isEmpty
      · rw [scanPlatforms, if_neg h1, if_pos h2]
      · rw [scanPlatforms, if_neg h1, if_neg h2]
        have hpos : 0 < platformDelay tt i p :=
          platformDelay_pos tt i p (by simpa [List.isEmpty_iff] using h2)
        by_cases h3 : platformDelay tt i p < d
        · rw [if_pos h3]
          exact scanPlatforms_delay_nonneg tt i ps p _ (le_of_lt hpos)
        · rw [if_neg h3]
          exact scanPlatforms_delay_nonneg tt i ps bp d hd

/-- A consolidated move with a nonnegative delay only pushes the record
at index i forward and keeps all durations. -/
lemma applyMove_delayed (tt : List TrainSchedule) (i : Nat) (bp : String)
    (bd : ℚ) (h : 0 ≤ bd) : DelayedFrom tt (applyMove tt i bp bd) := by
  constructor
  · simp [applyMove]
  · intro j
    by_cases hij : i = j
    · subst hij
      by_cases hlen : i < tt.length
      · have hget : (applyMove tt i bp bd).getD i default =
            { tt.getD i default with
              platform := bp
              start_time := (tt.getD i default).start_time + bd
              end_time := (tt.getD i default).end_time + bd } := by
          simp only [applyMove]
          rw [List.getD_eq_getElem?_getD, List.getElem?_set_self hlen,
            Option.getD_some]
        rw [hget]
        exact ⟨le_add_of_nonneg_right h, add_sub_add_right_eq_sub _ _ _⟩
      · have hget : (applyMove tt i bp bd).getD i default =
            tt.getD i default := by
          have hlen2 : (applyMove tt i bp bd).length ≤ i := by
            simp only [applyMove, List.length_set]
            omega
          rw [List.getD_eq_default _ _ hlen2,
            List.getD_eq_default _ _ (by omega)]
        rw [hget]
        exact ⟨le_refl _, rfl⟩
    · have hget : (applyMove tt i bp bd).getD j default =
          tt.getD j default := by
        simp only [applyMove]
        rw [List.getD_eq_getElem?_getD, List.getElem?_set_ne hij,
          ← List.getD_eq_getElem?_getD]
      rw [hget]
      exact ⟨le_refl _, rfl⟩

/-- Whatever the fuel, the while loop only delays the records of the
timetable and keeps every duration. -/
lemma trainLoop_delayed (ps : List String) :
    ∀ (fuel : Nat) (tt : List TrainSchedule) (i : Nat),
      DelayedFrom tt (trainLoop ps fuel tt i)
  | 0, tt, _ => delayedFrom_refl tt
  | fuel + 1, tt, i => by
    by_cases hc : conflictIdxs tt i = []
    · rw [trainLoop_of_no_conflicts ps tt i hc]
      exact delayedFrom_refl tt
    · by_cases hw : minIdxByPriority tt i (conflictIdxs tt i) = i
      · rw [trainLoop_move ps tt i fuel hc hw]
        have hd0 : 0 ≤ maxEnd tt (conflictIdxs tt i) -
            (tt.getD i default).start_time :=
          le_of_lt (conflictDelay_pos tt i hc)
        exact delayedFrom_trans
          (applyMove_delayed tt i _ _
            (scanPlatforms_delay_nonneg tt i ps _ _ hd0))
          (trainLoop_delayed ps fuel _ i)
      · rw [trainLoop_of_yield ps tt i hw]
        exact delayedFrom_refl tt

/-- The per train pass of resolve_conflicts only delays records. -/
lemma foldl_trainLoop_delayed (ps : List String) :
    ∀ (idxs : List Nat) (s : List TrainSchedule),
      DelayedFrom s
        (idxs.foldl (fun tt i => trainLoop ps (tt.length + 1) tt i) s)
  | [], _ => delayedFrom_refl _
  | i :: idxs, s => by
    rw [List.foldl_cons]
    exact delayedFrom_trans (trainLoop_delayed ps (s.length + 1) s i)
      (foldl_trainLoop_delayed ps idxs _)

/-- The stable insertion step is a permutation. -/
lemma insertByStart_perm (t : TrainSchedule) :
    ∀ (l : List TrainSchedule), (insertByStart t l).Perm (t :: l)
  | [] => List.Perm.refl _
  | u :: us => by
    rw [insertByStart]
    by_cases h : t.start_time ≤ u.start_time
    · rw [if_pos h]
    · rw [if_neg h]
      exact ((insertByStart_perm t us).cons u).trans (List.Perm.swap t u us)

/-- The modelled stable sort permutes the timetable. -/
lemma sortByStart_perm :
    ∀ (l : List TrainSchedule), (sortByStart l).Perm l
  | [] => List.Perm.refl _
  | t :: ts =>
    (insertByStart_perm t (sortByStart ts)).trans
      ((sortByStart_perm ts).cons t)

/-- Claim C7: resolution first reorders the timetable by the stable sort
on start times, a permutation; after that, position by position, the
start time never moves backward and the duration is exactly preserved,
and the length of the timetable is unchanged. -/
theorem delay_monotonicity (tt : List TrainSchedule) (ps : List String) :
    (sortByStart tt).Perm tt ∧
    (resolve_conflicts tt ps).length = tt.length ∧
    ∀ i : Nat,
      ((sortByStart tt).getD i default).start_time ≤
        ((resolve_conflicts tt ps).getD i default).start_time ∧
      ((resolve_conflicts tt ps).getD i default).end_time -
          ((resolve_conflicts tt ps).getD i default).start_time =
        ((sortByStart tt).getD i default).end_time -
          ((sortByStart tt).getD i default).start_time := by
  have hd : DelayedFrom (sortByStart tt) (resolve_conflicts tt ps) := by
    simp only [resolve_conflicts]
    exact foldl_trainLoop_delayed ps _ _
  exact ⟨sortByStart_perm tt,
    hd.1.trans (sortByStart_perm tt).length_eq,
    fun i => ⟨(hd.2 i).1, (hd.2 i).2⟩⟩

/-- The record at index i after a consolidated move: same identifier and
priority, the new platform, and both bounds moved by the delay. -/
lemma applyMove_getD_self (tt : List TrainSchedule) (i : Nat) (bp : String)
    (bd : ℚ) (hi : i < tt.length) :
    (applyMove tt i bp bd).getD i default =
      { tt.getD i default with
        platform := bp
        start_time := (tt.getD i default).start_time + bd
        end_time := (tt.getD i default).end_time + bd } := by
  simp only [applyMove]
  rw [List.getD_eq_getElem?_getD, List.getElem?_set_self hi, Option.getD_some]

/-- A consolidated move leaves every record other than the one at index
i untouched. -/
lemma applyMove_getD_ne (tt : List TrainSchedule) (i : Nat) (bp : String)
    (bd : ℚ) (j : Nat) (h : i ≠ j) :
    (applyMove tt i bp bd).getD j default = tt.getD j default := by
  simp only [applyMove]
  rw [List.getD_eq_getElem?_getD, List.getElem?_set_ne h,
    ← List.getD_eq_getElem?_getD]

/-- A consolidated move keeps the length of the timetable. -/
lemma applyMove_length (tt : List TrainSchedule) (i : Nat) (bp : String)
    (bd : ℚ) : (applyMove tt i bp bd).length = tt.length := by
  simp [applyMove]

/-- Pointwise implication between Boolean filters bounds the filtered
lengths. -/
lemma length_filter_mono_of_imp {α : Type} (p q : α → Bool) :
    ∀ (l : List α), (∀ x ∈ l, q x = true → p x = true) →
      (l.filter q).length ≤ (l.filter p).length
  | [], _ => le_refl 0
  | a :: l, h => by
    have ht := length_filter_mono_of_imp p q l
      (fun x hx => h x (List.mem_cons_of_mem _ hx))
    by_cases hq : q a = true
    · have hp := h a (List.mem_cons_self _ _) hq
      rw [List.filter_cons_of_pos hq, List.filter_cons_of_pos hp]
      simpa using Nat.succ_le_succ ht
    · rw [List.filter_cons_of_neg hq]
      by_cases hp : p a = true
      · rw [List.filter_cons_of_pos hp]
        exact ht.trans (by simp)
      · rw [List.filter_cons_of_neg hp]
        exact ht

/-- A pointwise implication together with one listed element that the
stronger filter rejects and the weaker filter accepts makes the filtered
length strictly drop. -/
lemma length_filter_lt_of_imp {α : Type} (p q : α → Bool) :
    ∀ (l : List α), (∀ x ∈ l, q x = true → p x = true) →
      ∀ x ∈ l, p x = true → q x = false →
      (l.filter q).length < (l.filter p).length
  | [], _, x, hx, _, _ => absurd hx (List.not_mem_nil x)
  | a :: l, h, x, hx, hpx, hqx => by
    have h2 : ∀ y ∈ l, q y = true → p y = true :=
      fun y hy => h y (List.mem_cons_of_mem _ hy)
    rcases List.mem_cons.mp hx with hxa | hxl
    · subst hxa
      rw [List.filter_cons_of_neg (by simp [hqx]), List.filter_cons_of_pos hpx]
      exact Nat.lt_succ_of_le (length_filter_mono_of_imp p q l h2)
    · by_cases hqa : q a = true
      · have hpa := h a (List.mem_cons_self _ _) hqa
        rw [List.filter_cons_of_pos hqa, List.filter_cons_of_pos hpa]
        simpa using Nat.succ_lt_succ
          (length_filter_lt_of_imp p q l h2 x hxl hpx hqx)
      · rw [List.filter_cons_of_neg hqa]
        have hrec := length_filter_lt_of_imp p q l h2 x hxl hpx hqx
        by_cases hpa : p a = true
        · rw [List.filter_cons_of_pos hpa]
          exact hrec.trans (by simp)
        · rw [List.filter_cons_of_neg hpa]
          exact hrec

/-- A move by a positive delay that parks the start of record i exactly
on the end time of some other record makes the termination measure
strictly drop: the moved start clears that record and clears no new
one. -/
lemma laterEnds_applyMove_lt (tt : List TrainSchedule) (i : Nat)
    (bp : String) (bd : ℚ) (hi : i < tt.length) (hbd : 0 < bd)
    (j0 : Nat) (hj0 : j0 < tt.length) (hj0ne : j0 ≠ i)
    (hj0eq : (tt.getD i default).start_time + bd =
      (tt.getD j0 default).end_time) :
    laterEnds (applyMove tt i bp bd) i < laterEnds tt i := by
  rw [laterEnds, laterEnds, applyMove_length]
  refine length_filter_lt_of_imp _ _ (List.range tt.length) ?_
    j0 (List.mem_range.mpr hj0) ?_ ?_
  · intro x _ hqx
    simp only [Bool.and_eq_true, decide_eq_true_eq] at hqx ⊢
    obtain ⟨hx1, hx2⟩ := hqx
    rw [applyMove_getD_ne tt i bp bd x (fun he => hx1 he.symm),
      applyMove_getD_self tt i bp bd hi] at hx2
    exact ⟨hx1, lt_trans (lt_add_of_pos_right _ hbd) hx2⟩
  · simp only [Bool.and_eq_true, decide_eq_true_eq]
    refine ⟨hj0ne, ?_⟩
    rw [← hj0eq]
    exact lt_add_of_pos_right _ hbd
  · have h2 : decide (((applyMove tt i bp bd).getD i default).start_time <
        ((applyMove tt i bp bd).getD j0 default).end_time) = false := by
      refine decide_eq_false ?_
      rw [applyMove_getD_ne tt i bp bd j0 (fun he => hj0ne he.symm),
        applyMove_getD_self tt i bp bd hi]
      rw [← hj0eq]
      exact lt_irrefl _
    rw [h2, Bool.and_false]

/-- A nonempty conflicts list forces a strictly positive termination
measure: each conflicting record ends after the start of record i. -/
lemma laterEnds_pos (tt : List TrainSchedule) (i : Nat)
    (h : conflictIdxs tt i ≠ []) : 0 < laterEnds tt i := by
  obtain ⟨j, hj⟩ := List.exists_mem_of_ne_nil _ h
  have hf := mem_conflictIdxs hj
  rw [laterEnds]
  refine List.length_pos.mpr (List.ne_nil_of_mem (List.mem_filter.mpr
    ⟨List.mem_range.mpr hf.1, ?_⟩))
  simp only [Bool.and_eq_true, decide_eq_true_eq]
  exact ⟨hf.2.1, hf.2.2.2.1⟩

/-- What the scan can return, given a positive starting delay that parks
the start of record i on the end of some other record: either a positive
delay of that same shape, or the first free platform, distinct from the
current one, with delay zero and an empty blocking list. -/
lemma scanPlatforms_outcome (tt : List TrainSchedule) (i : Nat) :
    ∀ (ps : List String) (bp0 : String) (d : ℚ) (bp : String) (bd : ℚ),
      0 < d →
      (∃ j, j < tt.length ∧ j ≠ i ∧
        (tt.getD i default).start_time + d = (tt.getD j default).end_time) →
      scanPlatforms tt i ps bp0 d = (bp, bd) →
      (0 < bd ∧ ∃ j, j < tt.length ∧ j ≠ i ∧
        (tt.getD i default).start_time + bd = (tt.getD j default).end_time) ∨
      (bd = 0 ∧ bp ≠ (tt.getD i default).platform ∧
        blockingIdxs tt i bp = [])
  | [], bp0, d, bp, bd => fun hd hQ hscan => by
    rw [scanPlatforms] at hscan
    obtain ⟨h1, h2⟩ := Prod.mk.injEq .. ▸ hscan
    exact Or.inl ⟨h2 ▸ hd, h2 ▸ hQ⟩
  | p :: ps, bp0, d, bp, bd => fun hd hQ hscan => by
    by_cases h1 : p = (tt.getD i default).platform
    · rw [scanPlatforms, if_pos h1] at hscan
      exact scanPlatforms_outcome tt i ps bp0 d bp bd hd hQ hscan
    · by_cases h2 : (blockingIdxs tt i p).isEmpty
      · rw [scanPlatforms, if_neg h1, if_pos h2] at hscan
        obtain ⟨hp, hd0⟩ := Prod.mk.injEq .. ▸ hscan
        refine Or.inr ⟨hd0.symm, ?_, ?_⟩
        · rw [← hp]
          exact h1
        · rw [← hp]
          exact List.isEmpty_iff.mp h2
      · rw [scanPlatforms, if_neg h1, if_neg h2] at hscan
        have hbne : blockingIdxs tt i p ≠ [] := by
          simpa [List.isEmpty_iff] using h2
        by_cases h3 : platformDelay tt i p < d
        · rw [if_pos h3] at hscan
          have hpos := platformDelay_pos tt i p hbne
          obtain ⟨j, hjm, hje⟩ := maxEnd_attained tt _ hbne
          have hjf := mem_blockingIdxs hjm
          have hjne : j ≠ i := by
            intro he
            rw [he] at hjf
            exact h1 hjf.2.1.symm
          refine scanPlatforms_outcome tt i ps p _ bp bd hpos
            ⟨j, hjf.1, hjne, ?_⟩ hscan
          rw [platformDelay]
          rw [show (tt.getD i default).start_time +
              (maxEnd tt (blockingIdxs tt i p) -
                (tt.getD i default).start_time) =
              maxEnd tt (blockingIdxs tt i p) by ring]
          exact hje
        · rw [if_neg h3] at hscan
          exact scanPlatforms_outcome tt i ps bp0 d bp bd hd hQ hscan

/-- After a zero delay move onto a platform with an empty blocking list,
the record at index i has no conflict left: any conflicting record would
have been in that blocking list already. -/
lemma conflictIdxs_applyMove_zero (tt : List TrainSchedule) (i : Nat)
    (bp : String) (hi : i < tt.length)
    (hne : bp ≠ (tt.getD i default).platform)
    (hempty : blockingIdxs tt i bp = []) :
    conflictIdxs (applyMove tt i bp 0) i = [] := by
  rw [conflictIdxs, List.filter_eq_nil_iff]
  intro j hj
  simp only [Bool.and_eq_true, decide_eq_true_eq, not_and]
  intro hj2 hovl
  obtain ⟨hjne, hjplat⟩ := hj2
  have hjlen : j < tt.length := by
    rw [List.mem_range, applyMove_length] at hj
    exact hj
  rw [applyMove_getD_ne tt i bp 0 j (fun he => hjne he.symm)] at hjplat hovl
  rw [applyMove_getD_self tt i bp 0 hi] at hjplat hovl
  have hovl2 : intervals_overlap (tt.getD i default) (tt.getD j default) =
      true := by
    simp only [intervals_overlap, decide_eq_true_eq] at hovl ⊢
    simpa using hovl
  have hmem : j ∈ blockingIdxs tt i bp := by
    rw [blockingIdxs, List.mem_filter]
    refine ⟨List.mem_range.mpr hjlen, ?_⟩
    simp only [Bool.and_eq_true, decide_eq_true_eq]
    exact ⟨hjplat, hovl2⟩
  rw [hempty] at hmem
  exact absurd hmem (List.not_mem_nil j)

/-- The while loop for the train at index i stabilizes within fuel
m + 2 whenever the termination measure is at most m, and the state it
stabilizes on satisfies one of the two break conditions. -/
lemma trainLoop_reaches_break (ps : List String) (i : Nat) :
    ∀ (m : Nat) (tt : List TrainSchedule), i < tt.length →
      laterEnds tt i ≤ m →
      ∃ s, (∀ g, m + 2 ≤ g → trainLoop ps g tt i = s) ∧
        (conflictIdxs s i = [] ∨
          minIdxByPriority s i (conflictIdxs s i) ≠ i) := by
  intro m
  induction m using Nat.strong_induction_on with
  | _ m ih =>
    intro tt hi hm
    by_cases hc : conflictIdxs tt i = []
    · exact ⟨tt, fun g _ => trainLoop_of_no_conflicts ps tt i hc g, Or.inl hc⟩
    by_cases hw : minIdxByPriority tt i (conflictIdxs tt i) = i
    · obtain ⟨bp, bd, hscan⟩ : ∃ bp bd,
          scanPlatforms tt i ps (tt.getD i default).platform
            (maxEnd tt (conflictIdxs tt i) -
              (tt.getD i default).start_time) = (bp, bd) := ⟨_, _, rfl⟩
      have hd0 := conflictDelay_pos tt i hc
      have hQ0 : ∃ j, j < tt.length ∧ j ≠ i ∧
          (tt.getD i default).start_time +
            (maxEnd tt (conflictIdxs tt i) -
              (tt.getD i default).start_time) =
          (tt.getD j default).end_time := by
        obtain ⟨j, hjm, hje⟩ := maxEnd_attained tt _ hc
        have hjf := mem_conflictIdxs hjm
        refine ⟨j, hjf.1, hjf.2.1, ?_⟩
        rw [show (tt.getD i default).start_time +
            (maxEnd tt (conflictIdxs tt i) -
              (tt.getD i default).start_time) =
            maxEnd tt (conflictIdxs tt i) by ring]
        exact hje
      rcases scanPlatforms_outcome tt i ps _ _ bp bd hd0 hQ0 hscan with
        ⟨hpos, j0, hj0, hj0ne, hj0eq⟩ | ⟨hzero, hbpne, hempty⟩
      · have hdec := laterEnds_applyMove_lt tt i bp bd hi hpos j0 hj0
          hj0ne hj0eq
        have him : i < (applyMove tt i bp bd).length := by
          rw [applyMove_length]
          exact hi
        obtain ⟨s, hs, hbrk⟩ := ih (laterEnds (applyMove tt i bp bd) i)
          (by omega) (applyMove tt i bp bd) him (le_refl _)
        refine ⟨s, fun g hg => ?_, hbrk⟩
        obtain ⟨g2, rfl⟩ : ∃ g2, g = g2 + 1 := ⟨g - 1, by omega⟩
        rw [trainLoop_move ps tt i g2 hc hw, hscan]
        exact hs g2 (by omega)
      · subst hzero
        have hconf2 := conflictIdxs_applyMove_zero tt i bp hi hbpne hempty
        refine ⟨applyMove tt i bp 0, fun g hg => ?_, Or.inl hconf2⟩
        obtain ⟨g2, rfl⟩ : ∃ g2, g = g2 + 1 := ⟨g - 1, by omega⟩
        rw [trainLoop_move ps tt i g2 hc hw, hscan]
        exact trainLoop_of_no_conflicts ps _ i hconf2 g2
    · exact ⟨tt, fun g _ => trainLoop_of_yield ps tt i hw g, Or.inr hw⟩

/-- Claim C8: for a train at a valid position of any finite timetable
and any platform list, the while loop of resolve_conflicts terminates:
with the fuel used by resolve_conflicts, and with any larger fuel, it
returns one fixed timetable on which one of the two break conditions of
the loop holds. -/
theorem trainLoop_terminates (tt : List TrainSchedule) (ps : List String)
    (i : Nat) (h : i < tt.length) :
    ∃ s, (∀ g, tt.length + 1 ≤ g → trainLoop ps g tt i = s) ∧
      (conflictIdxs s i = [] ∨
        minIdxByPriority s i (conflictIdxs s i) ≠ i) := by
  have hmlt : laterEnds tt i < tt.length := by
    rw [laterEnds]
    have hx : ((List.range tt.length).filter fun j =>
        decide (j ≠ i) &&
          decide ((tt.getD i default).start_time <
            (tt.getD j default).end_time)).length <
        (List.range tt.length).length :=
      List.length_filter_lt_length_iff_exists.mpr
        ⟨i, List.mem_range.mpr h, by simp⟩
    simpa using hx
  obtain ⟨s, hs, hbrk⟩ := trainLoop_reaches_break ps i (tt.length - 1) tt h
    (by omega)
  exact ⟨s, fun g hg => hs g (by omega), hbrk⟩

/-- Applies claim C8 at the two train fixture: the loop for the first
train stabilizes at every fuel beyond the one resolve_conflicts uses. -/
theorem trainLoop_terminates_witness :
    (0 : Nat) < ttPriori.length ∧
    ∃ s, (∀ g, ttPriori.length + 1 ≤ g → trainLoop ["P1"] g ttPriori 0 = s) ∧
      (conflictIdxs s 0 = [] ∨
        minIdxByPriority s 0 (conflictIdxs s 0) ≠ 0) :=
  ⟨by decide, trainLoop_terminates ttPriori ["P1"] 0 (by decide)⟩

/-- Filtering distributes over flatMap. -/
lemma filter_flatMap_eq {α β : Type} (p : β → Bool) (f : α → List β) :
    ∀ (l : List α),
      (l.flatMap f).filter p = l.flatMap fun a => (f a).filter p
  | [] => rfl
  | a :: l => by
    rw [List.flatMap_cons, List.flatMap_cons, List.filter_append,
      filter_flatMap_eq p f l]

/-- Mapping distributes over flatMap. -/
lemma map_flatMap_eq {α β γ : Type} (g : β → γ) (f : α → List β) :
    ∀ (l : List α), (l.flatMap f).map g = l.flatMap fun a => (f a).map g
  | [] => rfl
  | a :: l => by
    rw [List.flatMap_cons, List.flatMap_cons, List.map_append,
      map_flatMap_eq g f l]

/-- flatMap only depends on the values of its function on list
members. -/
lemma flatMap_congr_mem {α β : Type} (f g : α → List β) :
    ∀ (l : List α), (∀ a ∈ l, f a = g a) → l.flatMap f = l.flatMap g
  | [], _ => rfl
  | a :: l, h => by
    rw [List.flatMap_cons, List.flatMap_cons, h a (List.mem_cons_self _ _),
      flatMap_congr_mem f g l (fun x hx => h x (List.mem_cons_of_mem _ hx))]

/-- A filterMap given by a conditional is a filter followed by a map. -/
lemma filterMap_ite_eq {α β : Type} (p : α → Prop) [DecidablePred p]
    (f : α → β) :
    ∀ (l : List α),
      (l.filterMap fun a => if p a then some (f a) else none) =
        (l.filter fun a => decide (p a)).map f
  | [] => rfl
  | a :: l => by
    by_cases h : p a
    · rw [List.filterMap_cons]
      simp only [if_pos h]
      rw [List.filter_cons_of_pos (by simpa using h), List.map_cons,
        filterMap_ite_eq p f l]
    · rw [List.filterMap_cons]
      simp only [if_neg h]
      rw [List.filter_cons_of_neg (by simpa using h), filterMap_ite_eq p f l]

/-- The inner loop of detect_conflicts for a fixed first index i,
rewritten over the full index range: scanning j from i + 1 up to the end
is the same as filtering the whole range by i < j. -/
lemma detect_inner (tt : List TrainSchedule) (i : Nat)
    (hi : i < tt.length) :
    ((List.range' (i + 1) (tt.length - (i + 1))).filterMap fun j =>
      if (tt.getD i default).platform = (tt.getD j default).platform ∧
          intervals_overlap (tt.getD i default) (tt.getD j default) then
        some (tt.getD i default, tt.getD j default)
      else none) =
    ((List.range tt.length).filter fun j =>
        decide (i < j) &&
          (decide ((tt.getD i default).platform =
            (tt.getD j default).platform) &&
            intervals_overlap (tt.getD i default) (tt.getD j default))).map
      (fun j => (tt.getD i default, tt.getD j default)) := by
  rw [filterMap_ite_eq]
  congr 1
  have hc : ∀ j : Nat,
      (decide ((tt.getD i default).platform =
          (tt.getD j default).platform ∧
        intervals_overlap (tt.getD i default) (tt.getD j default))) =
      (decide ((tt.getD i default).platform =
          (tt.getD j default).platform) &&
        intervals_overlap (tt.getD i default) (tt.getD j default)) := by
    intro j
    cases hovl : intervals_overlap (tt.getD i default) (tt.getD j default) <;>
      by_cases hp : (tt.getD i default).platform =
        (tt.getD j default).platform <;>
      simp [hovl, hp]
  rw [List.filter_congr (fun j _ => hc j)]
  have hsum : (tt.length - (i + 1)) + (i + 1) = tt.length := by omega
  have hsplit : List.range tt.length =
      List.range' 0 (i + 1) ++ List.range' (i + 1) (tt.length - (i + 1)) := by
    rw [List.range_eq_range', ← hsum, ← List.range'_append 0 (i + 1)
      (tt.length - (i + 1)) 1]
    norm_num
  rw [hsplit, List.filter_append]
  have hleft : (List.range' 0 (i + 1)).filter (fun j =>
      decide (i < j) &&
        (decide ((tt.getD i default).platform =
          (tt.getD j default).platform) &&
          intervals_overlap (tt.getD i default) (tt.getD j default))) = [] := by
    rw [List.filter_eq_nil_iff]
    intro j hj
    obtain ⟨k, hk, hkj⟩ := List.mem_range'.mp hj
    have hji : ¬i < j := by omega
    simp [hji]
  have hright : (List.range' (i + 1) (tt.length - (i + 1))).filter (fun j =>
      decide (i < j) &&
        (decide ((tt.getD i default).platform =
          (tt.getD j default).platform) &&
          intervals_overlap (tt.getD i default) (tt.getD j default))) =
      (List.range' (i + 1) (tt.length - (i + 1))).filter (fun j =>
        decide ((tt.getD i default).platform =
          (tt.getD j default).platform) &&
          intervals_overlap (tt.getD i default) (tt.getD j default)) := by
    refine List.filter_congr ?_
    intro j hj
    obtain ⟨k, hk, hkj⟩ := List.mem_range'.mp hj
    have hji : i < j := by omega
    simp [hji]
  rw [hleft, hright, List.nil_append]

/-- The flatMap enumeration of index pairs, i major and j minor over
sorted lists, is sorted for the lexicographic order on pairs. -/
lemma pairwise_lex_flatMap :
    ∀ (l1 l2 : List Nat), l1.Pairwise (· < ·) → l2.Pairwise (· < ·) →
      (l1.flatMap fun a => l2.map (Prod.mk a)).Pairwise
        (fun a b : Nat × Nat => a.1 < b.1 ∨ (a.1 = b.1 ∧ a.2 < b.2))
  | [], _, _, _ => List.Pairwise.nil
  | a :: l1, l2, h1, h2 => by
    rw [List.flatMap_cons]
    rw [List.pairwise_append]
    refine ⟨?_, ?_, ?_⟩
    · rw [List.pairwise_map]
      exact h2.imp (fun hxy => Or.inr ⟨rfl, hxy⟩)
    · exact pairwise_lex_flatMap l1 l2 (List.pairwise_cons.mp h1).2 h2
    · intro x hx y hy
      obtain ⟨x2, _, rfl⟩ := List.mem_map.mp hx
      have hy1 : y.1 ∈ l1 := by
        have hym : (y.1, y.2) ∈ List.product l1 l2 := hy
        exact (List.pair_mem_product.mp hym).1
      exact Or.inl ((List.pairwise_cons.mp h1).1 y.1 hy1)

/-- Claim C5: detect_conflicts returns exactly the record pairs at index
pairs (i, j), i < j, sharing a platform and overlapping, read off the
lexicographically ordered enumeration of index pairs; that enumeration
of conflict index pairs is itself sorted for the lexicographic order.
The embedding is a pure function of the timetable, so the timetable and
its records are left untouched. -/
theorem detect_conflicts_exact_pairs (tt : List TrainSchedule) :
    detect_conflicts tt =
      ((List.product (List.range tt.length) (List.range tt.length)).filter
        (fun ij => decide (ij.1 < ij.2) &&
          (decide ((tt.getD ij.1 default).platform =
            (tt.getD ij.2 default).platform) &&
            intervals_overlap (tt.getD ij.1 default)
              (tt.getD ij.2 default)))).map
        (fun ij => (tt.getD ij.1 default, tt.getD ij.2 default)) ∧
    List.Pairwise (fun a b : Nat × Nat => a.1 < b.1 ∨ (a.1 = b.1 ∧ a.2 < b.2))
      ((List.product (List.range tt.length) (List.range tt.length)).filter
        (fun ij => decide (ij.1 < ij.2) &&
          (decide ((tt.getD ij.1 default).platform =
            (tt.getD ij.2 default).platform) &&
            intervals_overlap (tt.getD ij.1 default)
              (tt.getD ij.2 default)))) := by
  constructor
  · rw [detect_conflicts]
    rw [show List.product (List.range tt.length) (List.range tt.length) =
      (List.range tt.length).flatMap
        (fun a => (List.range tt.length).map (Prod.mk a)) from rfl]
    rw [filter_flatMap_eq, map_flatMap_eq]
    refine flatMap_congr_mem _ _ _ ?_
    intro i hi
    have hi2 : i < tt.length := List.mem_range.mp hi
    rw [List.filter_map, List.map_map, detect_inner tt i hi2]
    refine congrArg₂ _ ?_ ?_
    · funext j
      simp [Function.comp]
    · refine List.filter_congr ?_
      intro j _
      simp [Function.comp]
  · apply List.Pairwise.filter
    rw [show List.product (List.range tt.length) (List.range tt.length) =
      (List.range tt.length).flatMap
        (fun a => (List.range tt.length).map (Prod.mk a)) from rfl]
    exact pairwise_lex_flatMap _ _ (List.pairwise_lt_range _)
      (List.pairwise_lt_range _)
